import Mathlib

/-!
Verification of the chunking service of the chromadbgui repository
(file `backend/services/chunking.service.js`).

JavaScript strings are modelled as `List Char`; JavaScript numbers that the
service manipulates are integers in every reachable use, so they are modelled
as `Int`.  The option object `{mode, chunkSize, overlap}` is modelled with
`Option` fields (`none` = absent), and the JavaScript falsy-defaulting
`x || d` is modelled by `jsOrStr` / `jsOrInt` (the falsy values of the
relevant types being the empty string and the number 0).

The `while` loop of `configurableChunk` is embedded as an explicit step
function `configStep` on a loop state, iterated by a fuel-indexed runner
`configRun` that returns `none` when the fuel is exhausted before the loop
exits: `configRun` returns `some` for a large enough fuel exactly when the
JavaScript loop terminates.
-/

set_option autoImplicit false

namespace ChunkingService

/-- The WhiteSpace and LineTerminator code points recognised by
JavaScript `String.prototype.trim`. -/
def jsWhitespaceChars : List Char :=
  ['\t', '\n', '\x0b', '\x0c', '\r', ' ', '\u00A0', '\uFEFF',
   '\u1680', '\u2000', '\u2001', '\u2002', '\u2003', '\u2004', '\u2005',
   '\u2006', '\u2007', '\u2008', '\u2009', '\u200A', '\u2028', '\u2029',
   '\u202F', '\u205F', '\u3000']

/-- Whether a character is JavaScript whitespace. -/
def isJsWs (c : Char) : Bool :=
  jsWhitespaceChars.contains c

/-- JavaScript `String.prototype.trim`: remove leading and trailing
whitespace. -/
def jsTrim (s : List Char) : List Char :=
  ((s.dropWhile isJsWs).reverse.dropWhile isJsWs).reverse

/-- JavaScript `String.prototype.substring(a, b)`: both arguments are
clamped to `[0, length]` and swapped if out of order. -/
def jsSubstring (s : List Char) (a b : Int) : List Char :=
  let len : Int := s.length
  let ia := min (max a 0) len
  let ib := min (max b 0) len
  (s.take (max ia ib).toNat).drop (min ia ib).toNat

/-- JavaScript `x || d` for string-valued `x` (absent and the empty string
are falsy). -/
def jsOrStr (x : Option (List Char)) (d : List Char) : List Char :=
  match x with
  | none => d
  | some s => if s = [] then d else s

/-- JavaScript `x || d` for number-valued `x` (absent and 0 are falsy). -/
def jsOrInt (x : Option Int) (d : Int) : Int :=
  match x with
  | none => d
  | some v => if v = 0 then d else v

/-- JavaScript `Math.ceil(a / b)` for integer `a`, `b` with `b ≠ 0`. -/
def jsCeilDiv (a b : Int) : Int :=
  -((-a).fdiv b)

/-- Worker for `String.prototype.split(/\n\n+/)`.  `some acc` means a
segment `acc` (reversed) is being built; `none` means the newline run of a
separator (a maximal run of two or more newlines, matched greedily by the
regular expression) is still being consumed. -/
def splitAux : Option (List Char) → List Char → List (List Char)
  | some acc, [] => [acc.reverse]
  | none, [] => [[]]
  | some acc, '\n' :: '\n' :: rest => acc.reverse :: splitAux none rest
  | some acc, c :: rest => splitAux (some (c :: acc)) rest
  | none, '\n' :: rest => splitAux none rest
  | none, c :: rest => splitAux (some [c]) rest

/-- `text.split(/\n\n+/)`: split on maximal runs of two or more
consecutive newlines. -/
def splitParas (text : List Char) : List (List Char) :=
  splitAux (some []) text

/-- Specification-side notion: the text contains a paragraph break, i.e.
two adjacent newline characters. -/
def hasParaBreak : List Char → Bool
  | [] => false
  | [_] => false
  | c1 :: c2 :: rest => (c1 = '\n' && c2 = '\n') || hasParaBreak (c2 :: rest)

/-- A produced chunk: trimmed text plus its zero-based index. -/
structure Chunk where
  text : List Char
  index : Nat
deriving DecidableEq

/-- The recognised fields of the `options` object. -/
structure ChunkOptions where
  mode : Option (List Char) := none
  chunkSize : Option Int := none
  overlap : Option Int := none
deriving DecidableEq

/-- `Array.prototype.map` when the callback also uses the position:
`mapWithIndex f i [a, b, ...] = [f i a, f (i+1) b, ...]`. -/
def mapWithIndex {α β : Type} (f : Nat → α → β) : Nat → List α → List β
  | _, [] => []
  | i, a :: as => f i a :: mapWithIndex f (i + 1) as

/-- `ChunkingService.semanticChunk`: split by paragraphs. -/
def semanticChunk (text : List Char) : List Chunk :=
  if jsTrim text = [] then []
  else
    let paragraphs := ((splitParas text).map jsTrim).filter (fun p => !p.isEmpty)
    if paragraphs = [] then [⟨jsTrim text, 0⟩]
    else mapWithIndex (fun index p => ⟨p, index⟩) 0 paragraphs

/-- The state of the `while` loop of `configurableChunk`.  `done` records
that the loop has exited (head test failed or `break`). -/
structure LoopState where
  startIndex : Int
  chunkIndex : Nat
  chunks : List Chunk
  done : Bool
deriving DecidableEq

/-- One iteration of the `while` loop of `configurableChunk` (including the
head test and the `break` test). -/
def configStep (text : List Char) (chunkSize overlap : Int) (st : LoopState) :
    LoopState :=
  if st.done then st
  else if st.startIndex < (text.length : Int) then
    let endIndex := min (st.startIndex + chunkSize) (text.length : Int)
    let w := jsTrim (jsSubstring text st.startIndex endIndex)
    { startIndex := endIndex - overlap
      chunkIndex := if w = [] then st.chunkIndex else st.chunkIndex + 1
      chunks := if w = [] then st.chunks else st.chunks ++ [⟨w, st.chunkIndex⟩]
      done := decide (endIndex - overlap ≥ (text.length : Int)) }
  else { st with done := true }

/-- Fuel-indexed runner for the loop: `some` is returned exactly when the
loop exits within `fuel` iterations. -/
def configRun (text : List Char) (chunkSize overlap : Int) :
    Nat → LoopState → Option (List Chunk)
  | 0, st => if st.done then some st.chunks else none
  | fuel + 1, st =>
      if st.done then some st.chunks
      else configRun text chunkSize overlap fuel (configStep text chunkSize overlap st)

/-- Specification-side window-start sequence of the configurable loop:
`s 0 = 0` and `s (k+1) = (previous window end) − overlap`, where the window
end is `min (s k + chunkSize) text.length`. -/
def startSeq (text : List Char) (chunkSize overlap : Int) : Nat → Int
  | 0 => 0
  | k + 1 => min (startSeq text chunkSize overlap k + chunkSize) (text.length : Int) - overlap

/-- The raw (pre-trim) window inspected at iteration `k` of the
configurable loop. -/
def windowAt (text : List Char) (chunkSize overlap : Int) (k : Nat) : List Char :=
  jsSubstring text (startSeq text chunkSize overlap k)
    (min (startSeq text chunkSize overlap k + chunkSize) (text.length : Int))

/-- The trimmed non-empty windows among the first `n` iterations of the
configurable loop, in order: exactly the chunk texts emitted so far. -/
def emittedUpTo (text : List Char) (chunkSize overlap : Int) (n : Nat) : List (List Char) :=
  ((List.range n).map (fun k => jsTrim (windowAt text chunkSize overlap k))).filter
    (fun p => !p.isEmpty)

/-- `ChunkingService.configurableChunk`: fixed-size window with overlap.
Returns `none` when the JavaScript loop does not finish within `fuel`
iterations. -/
def configurableChunk (text : List Char) (options : ChunkOptions) (fuel : Nat) :
    Option (List Chunk) :=
  let chunkSize := jsOrInt options.chunkSize 500
  let overlap := jsOrInt options.overlap 50
  if jsTrim text = [] then some []
  else configRun text chunkSize overlap fuel ⟨0, 0, [], false⟩

/-- `ChunkingService.chunkText`: dispatch on the (defaulted) mode. -/
def chunkText (text : List Char) (options : ChunkOptions) (fuel : Nat) :
    Option (List Chunk) :=
  let mode := jsOrStr options.mode ("configurable".toList)
  if mode = "semantic".toList then some (semanticChunk text)
  else configurableChunk text options fuel

/-- `ChunkingService.estimateChunks`. -/
def estimateChunks (text : List Char) (options : ChunkOptions) : Int :=
  let mode := jsOrStr options.mode ("configurable".toList)
  if jsTrim text = [] then 0
  else if mode = "semantic".toList then
    max 1 (((splitParas text).filter (fun p => !(jsTrim p).isEmpty)).length : Int)
  else
    let chunkSize := jsOrInt options.chunkSize 500
    let overlap := jsOrInt options.overlap 50
    let textLength : Int := text.length
    if textLength ≤ chunkSize then 1
    else jsCeilDiv (textLength - chunkSize) (chunkSize - overlap) + 1

/-- Metadata values occurring in chunk documents. -/
inductive MetaVal where
  | str (s : List Char)
  | num (n : Int)
deriving DecidableEq

/-- A JavaScript object is modelled as an insertion-ordered key/value list. -/
def Obj : Type := List (List Char × MetaVal)

instance : DecidableEq Obj := by
  unfold Obj; infer_instance

/-- Property lookup (keys are unique in objects built by `objSet`). -/
def objGet : Obj → List Char → Option MetaVal
  | [], _ => none
  | (k, v) :: rest, key => if k = key then some v else objGet rest key

/-- Property assignment: overwrite in place if the key exists, else append
(JavaScript object-literal semantics). -/
def objSet : Obj → List Char → MetaVal → Obj
  | [], key, v => [(key, v)]
  | (k, w) :: rest, key, v =>
      if k = key then (key, v) :: rest else (k, w) :: objSet rest key v

/-- Iterated assignment, modelling an object literal
`{...base, k1: v1, k2: v2, ...}`. -/
def objSets : Obj → List (List Char × MetaVal) → Obj
  | o, [] => o
  | o, (k, v) :: rest => objSets (objSet o k v) rest

/-- A document record produced by `createChunkedDocuments`. -/
structure ChunkedDocument where
  id : List Char
  text : List Char
  metadata : Obj
deriving DecidableEq

/-- `ChunkingService.createChunkedDocuments`. -/
def createChunkedDocuments (baseId : List Char) (text : List Char)
    (options : ChunkOptions) (baseMetadata : Obj) (fuel : Nat) :
    Option (List ChunkedDocument) :=
  (chunkText text options fuel).map fun chunks =>
    let totalChunks := chunks.length
    mapWithIndex
      (fun index chunk =>
        { id := baseId ++ "_chunk_".toList ++ (Nat.repr (index + 1)).toList
          text := chunk.text
          metadata := objSets baseMetadata
            [("parent_doc_id".toList, MetaVal.str baseId),
             ("chunk_index".toList, MetaVal.num (Int.ofNat (index + 1))),
             ("total_chunks".toList, MetaVal.num (Int.ofNat totalChunks)),
             ("chunk_mode".toList,
              MetaVal.str (jsOrStr options.mode ("configurable".toList)))] })
      0 chunks

/-! ### Helper lemmas -/

/-- With a strictly positive (effective) overlap, the window loop never
exits: the break test `startIndex >= text.length` compares
`endIndex - overlap ≤ length - overlap < length`, so it never fires, and
the head test keeps succeeding for the same reason. -/
theorem configRun_eq_none_of_pos_overlap (text : List Char) (cs ov : Int)
    (hov : 0 < ov) :
    ∀ (fuel : Nat) (st : LoopState), st.done = false →
      st.startIndex < (text.length : Int) →
      configRun text cs ov fuel st = none := by
  intro fuel
  induction fuel with
  | zero =>
      intro st hd _
      simp [configRun, hd]
  | succ n ih =>
      intro st hd hs
      have hmin : min (st.startIndex + cs) ((text.length : Int)) ≤ (text.length : Int) :=
        min_le_right _ _
      have hlt : min (st.startIndex + cs) ((text.length : Int)) - ov < (text.length : Int) := by
        omega
      have hdone : (configStep text cs ov st).done = false := by
        simp only [configStep, hd, Bool.false_eq_true, if_false, hs, if_true, if_pos hs]
        simpa using not_le.mpr hlt
      have hsi : (configStep text cs ov st).startIndex < (text.length : Int) := by
        simp only [configStep, hd, Bool.false_eq_true, if_false, hs, if_true, if_pos hs]
        exact hlt
      simp only [configRun, hd, Bool.false_eq_true, if_false]
      exact ih _ hdone hsi

/-- Restricting a universally quantified Boolean predicate to the
`dropWhile` suffix loses nothing: the dropped prefix satisfies it anyway. -/
theorem dropWhile_forall_iff {p : Char → Bool} {l : List Char} :
    (∀ c ∈ l.dropWhile p, p c = true) ↔ ∀ c ∈ l, p c = true := by
  constructor
  · intro h c hc
    rcases List.mem_append.mp
        ((List.takeWhile_append_dropWhile p l).symm ▸ hc) with htk | hdr
    · exact List.mem_takeWhile_imp htk
    · exact h c hdr
  · intro h c hc
    exact h c ((List.dropWhile_sublist p).subset hc)

/-- `jsTrim` returns the empty string exactly when every character is
JavaScript whitespace. -/
theorem jsTrim_eq_nil_iff {l : List Char} :
    jsTrim l = [] ↔ ∀ c ∈ l, isJsWs c = true := by
  unfold jsTrim
  rw [List.reverse_eq_nil_iff, List.dropWhile_eq_nil_iff]
  constructor
  · intro h
    rw [← dropWhile_forall_iff (p := isJsWs) (l := l)]
    intro c hc
    exact h c (List.mem_reverse.mpr hc)
  · intro h c hc
    exact dropWhile_forall_iff.mpr h c (List.mem_reverse.mp hc)

/-- Every character of every segment produced by `splitAux` comes from the
pending segment or from the remaining input. -/
theorem splitAux_subset (st : Option (List Char)) (l : List Char) :
    ∀ p ∈ splitAux st l, ∀ c ∈ p, (∃ a, st = some a ∧ c ∈ a) ∨ c ∈ l := by
  induction st, l using splitAux.induct with
  | case1 acc =>
      intro p hp c hc
      rw [splitAux.eq_1] at hp
      rcases List.mem_singleton.mp hp with rfl
      exact Or.inl ⟨acc, rfl, List.mem_reverse.mp hc⟩
  | case2 =>
      intro p hp c hc
      rcases List.mem_singleton.mp hp with rfl
      exact absurd hc (List.not_mem_nil c)
  | case3 acc rest ih =>
      intro p hp c hc
      rw [splitAux.eq_3] at hp
      rcases List.mem_cons.mp hp with rfl | hp'
      · exact Or.inl ⟨acc, rfl, List.mem_reverse.mp hc⟩
      · rcases ih p hp' c hc with ⟨a, ha, _⟩ | hr
        · exact absurd ha (by simp)
        · exact Or.inr (by simp [hr])
  | case4 acc c' rest hne ih =>
      intro p hp c hc
      rw [splitAux.eq_4 acc c' rest hne] at hp
      rcases ih p hp c hc with ⟨a, ha, hm⟩ | hr
      · rcases Option.some_injective _ ha.symm ▸ hm with hm'
        rcases List.mem_cons.mp (by exact Option.some.inj ha ▸ hm) with rfl | hacc
        · exact Or.inr (List.mem_cons_self _ _)
        · exact Or.inl ⟨acc, rfl, hacc⟩
      · exact Or.inr (List.mem_cons_of_mem _ hr)
  | case5 rest ih =>
      intro p hp c hc
      rw [splitAux.eq_5] at hp
      rcases ih p hp c hc with ⟨a, ha, _⟩ | hr
      · exact absurd ha (by simp)
      · exact Or.inr (List.mem_cons_of_mem _ hr)
  | case6 c' rest hne ih =>
      intro p hp c hc
      rw [splitAux.eq_6 c' rest hne] at hp
      rcases ih p hp c hc with ⟨a, ha, hm⟩ | hr
      · rcases List.mem_singleton.mp (Option.some.inj ha ▸ hm) with rfl
        exact Or.inr (List.mem_cons_self _ _)
      · exact Or.inr (List.mem_cons_of_mem _ hr)

/-- A non-whitespace character of the pending segment or of the remaining
input ends up in some segment produced by `splitAux`. -/
theorem splitAux_exists_mem (c : Char) (hw : isJsWs c = false) :
    ∀ (st : Option (List Char)) (l : List Char),
      ((∃ a, st = some a ∧ c ∈ a) ∨ c ∈ l) → ∃ p ∈ splitAux st l, c ∈ p := by
  have hnl : c ≠ '\n' := by
    intro h
    rw [h] at hw
    exact absurd hw (by decide)
  intro st l
  induction st, l using splitAux.induct with
  | case1 acc =>
      rintro (⟨a, ha, hm⟩ | hl)
      · exact ⟨acc.reverse, by rw [splitAux.eq_1]; exact List.mem_singleton.mpr rfl,
          List.mem_reverse.mpr (Option.some.inj ha ▸ hm)⟩
      · exact absurd hl (List.not_mem_nil c)
  | case2 =>
      rintro (⟨a, ha, _⟩ | hl)
      · exact absurd ha (by simp)
      · exact absurd hl (List.not_mem_nil c)
  | case3 acc rest ih =>
      rintro (⟨a, ha, hm⟩ | hl)
      · refine ⟨acc.reverse, ?_, List.mem_reverse.mpr (Option.some.inj ha ▸ hm)⟩
        rw [splitAux.eq_3]
        exact List.mem_cons_self _ _
      · have hr : c ∈ rest := by
          rcases List.mem_cons.mp hl with rfl | hl'
          · exact absurd rfl hnl
          · rcases List.mem_cons.mp hl' with rfl | hl''
            · exact absurd rfl hnl
            · exact hl''
        rcases ih (Or.inr hr) with ⟨p, hp, hcp⟩
        refine ⟨p, ?_, hcp⟩
        rw [splitAux.eq_3]
        exact List.mem_cons_of_mem _ hp
  | case4 acc c' rest hne ih =>
      rintro (⟨a, ha, hm⟩ | hl)
      · have hm' : c ∈ c' :: acc := List.mem_cons_of_mem _ (Option.some.inj ha ▸ hm)
        rcases ih (Or.inl ⟨c' :: acc, rfl, hm'⟩) with ⟨p, hp, hcp⟩
        exact ⟨p, by rw [splitAux.eq_4 acc c' rest hne]; exact hp, hcp⟩
      · rcases List.mem_cons.mp hl with rfl | hr
        · rcases ih (Or.inl ⟨c :: acc, rfl, List.mem_cons_self _ _⟩) with ⟨p, hp, hcp⟩
          exact ⟨p, by rw [splitAux.eq_4 acc c rest hne]; exact hp, hcp⟩
        · rcases ih (Or.inr hr) with ⟨p, hp, hcp⟩
          exact ⟨p, by rw [splitAux.eq_4 acc c' rest hne]; exact hp, hcp⟩
  | case5 rest ih =>
      rintro (⟨a, ha, _⟩ | hl)
      · exact absurd ha (by simp)
      · have hr : c ∈ rest := by
          rcases List.mem_cons.mp hl with rfl | hl'
          · exact absurd rfl hnl
          · exact hl'
        rcases ih (Or.inr hr) with ⟨p, hp, hcp⟩
        exact ⟨p, by rw [splitAux.eq_5]; exact hp, hcp⟩
  | case6 c' rest hne ih =>
      rintro (⟨a, ha, _⟩ | hl)
      · exact absurd ha (by simp)
      · rcases List.mem_cons.mp hl with rfl | hr
        · rcases ih (Or.inl ⟨[c], rfl, List.mem_singleton.mpr rfl⟩) with ⟨p, hp, hcp⟩
          exact ⟨p, by rw [splitAux.eq_6 c rest hne]; exact hp, hcp⟩
        · rcases ih (Or.inr hr) with ⟨p, hp, hcp⟩
          exact ⟨p, by rw [splitAux.eq_6 c' rest hne]; exact hp, hcp⟩

/-- Without a paragraph break, `splitAux` produces the single segment
consisting of the pending prefix followed by the whole remaining input. -/
theorem splitAux_of_no_break (acc l : List Char) (h : hasParaBreak l = false) :
    splitAux (some acc) l = [acc.reverse ++ l] := by
  induction l generalizing acc with
  | nil => rw [splitAux.eq_1]; simp
  | cons c rest ih =>
      match c, rest, h with
      | c, [], _ =>
          have hne : ∀ (rest_1 : List Char), c = '\n' → ([] : List Char) = '\n' :: rest_1 → False := by
            intro r _ hr
            exact absurd hr (by simp)
          rw [splitAux.eq_4 acc c [] hne, splitAux.eq_1]
          simp
      | c, c2 :: rest', hres =>
          have hh : (c = '\n' && c2 = '\n') = false ∧ hasParaBreak (c2 :: rest') = false := by
            have := hres
            simp only [hasParaBreak, Bool.or_eq_false_iff] at this
            exact this
          have hne : ∀ (rest_1 : List Char), c = '\n' → c2 :: rest' = '\n' :: rest_1 → False := by
            intro r hc hr
            rw [hc] at hh
            have hc2 : c2 = '\n' := (List.cons.inj hr).1
            rw [hc2] at hh
            simpa using hh.1
          rw [splitAux.eq_4 acc c (c2 :: rest') hne, ih _ hh.2]
          simp

theorem mapWithIndex_length {α β : Type} (f : Nat → α → β) :
    ∀ (i : Nat) (l : List α), (mapWithIndex f i l).length = l.length := by
  intro i l
  induction l generalizing i with
  | nil => rfl
  | cons a as ih => simp [mapWithIndex, ih]

theorem mapWithIndex_getElem? {α β : Type} (f : Nat → α → β) :
    ∀ (l : List α) (i j : Nat), (mapWithIndex f i l)[j]? = l[j]?.map (f (i + j)) := by
  intro l
  induction l with
  | nil => intro i j; simp [mapWithIndex]
  | cons a as ih =>
      intro i j
      cases j with
      | zero => simp [mapWithIndex]
      | succ j' =>
          simp only [mapWithIndex, List.getElem?_cons_succ, ih (i + 1) j']
          have : i + 1 + j' = i + (j' + 1) := by omega
          rw [this]

theorem mapWithIndex_append_singleton {α β : Type} (f : Nat → α → β) :
    ∀ (l : List α) (i : Nat) (x : α),
      mapWithIndex f i (l ++ [x]) = mapWithIndex f i l ++ [f (i + l.length) x] := by
  intro l
  induction l with
  | nil => intro i x; simp [mapWithIndex]
  | cons a as ih =>
      intro i x
      have step : mapWithIndex f i ((a :: as) ++ [x]) =
          f i a :: mapWithIndex f (i + 1) (as ++ [x]) := rfl
      rw [step, ih (i + 1) x]
      have h : i + 1 + as.length = i + (a :: as).length := by
        simp only [List.length_cons]
        omega
      rw [h]
      rfl

theorem objGet_objSet_self (o : Obj) (k : List Char) (v : MetaVal) :
    objGet (objSet o k v) k = some v := by
  induction o with
  | nil => simp [objSet, objGet]
  | cons p rest ih =>
      rcases p with ⟨k0, w⟩
      by_cases h : k0 = k
      · simp [objSet, h, objGet]
      · simp [objSet, h, objGet, ih]

theorem objGet_objSet_other (o : Obj) (k k' : List Char) (v : MetaVal)
    (hne : k ≠ k') :
    objGet (objSet o k v) k' = objGet o k' := by
  induction o with
  | nil => simp [objSet, objGet, hne]
  | cons p rest ih =>
      rcases p with ⟨k0, w⟩
      by_cases h : k0 = k
      · subst h
        simp [objSet, objGet, hne]
      · simp only [objSet, if_neg h, objGet]
        by_cases h' : k0 = k'
        · simp [h']
        · simp [h', ih]

/-- The metadata object built for every chunk document: the four lineage
keys hold the lineage values (overwriting any base entry of the same
name), every other key keeps its base value. -/
theorem metadata_lineage_lookup (base : Obj) (bid mode : List Char) (ord total : Int) :
    objGet (objSets base
        [("parent_doc_id".toList, MetaVal.str bid),
         ("chunk_index".toList, MetaVal.num ord),
         ("total_chunks".toList, MetaVal.num total),
         ("chunk_mode".toList, MetaVal.str mode)]) ("parent_doc_id".toList) =
      some (MetaVal.str bid) ∧
    objGet (objSets base
        [("parent_doc_id".toList, MetaVal.str bid),
         ("chunk_index".toList, MetaVal.num ord),
         ("total_chunks".toList, MetaVal.num total),
         ("chunk_mode".toList, MetaVal.str mode)]) ("chunk_index".toList) =
      some (MetaVal.num ord) ∧
    objGet (objSets base
        [("parent_doc_id".toList, MetaVal.str bid),
         ("chunk_index".toList, MetaVal.num ord),
         ("total_chunks".toList, MetaVal.num total),
         ("chunk_mode".toList, MetaVal.str mode)]) ("total_chunks".toList) =
      some (MetaVal.num total) ∧
    objGet (objSets base
        [("parent_doc_id".toList, MetaVal.str bid),
         ("chunk_index".toList, MetaVal.num ord),
         ("total_chunks".toList, MetaVal.num total),
         ("chunk_mode".toList, MetaVal.str mode)]) ("chunk_mode".toList) =
      some (MetaVal.str mode) ∧
    ∀ k, k ≠ "parent_doc_id".toList → k ≠ "chunk_index".toList →
      k ≠ "total_chunks".toList → k ≠ "chunk_mode".toList →
      objGet (objSets base
        [("parent_doc_id".toList, MetaVal.str bid),
         ("chunk_index".toList, MetaVal.num ord),
         ("total_chunks".toList, MetaVal.num total),
         ("chunk_mode".toList, MetaVal.str mode)]) k = objGet base k := by
  simp only [objSets]
  refine ⟨?_, ?_, ?_, ?_, ?_⟩
  · rw [objGet_objSet_other _ _ _ _ (by decide), objGet_objSet_other _ _ _ _ (by decide),
      objGet_objSet_other _ _ _ _ (by decide), objGet_objSet_self]
  · rw [objGet_objSet_other _ _ _ _ (by decide), objGet_objSet_other _ _ _ _ (by decide),
      objGet_objSet_self]
  · rw [objGet_objSet_other _ _ _ _ (by decide), objGet_objSet_self]
  · rw [objGet_objSet_self]
  · intro k h1 h2 h3 h4
    rw [objGet_objSet_other _ _ _ _ (fun h => h4 h.symm),
      objGet_objSet_other _ _ _ _ (fun h => h3 h.symm),
      objGet_objSet_other _ _ _ _ (fun h => h2 h.symm),
      objGet_objSet_other _ _ _ _ (fun h => h1 h.symm)]

/-- For a positive divisor, `jsCeilDiv` computes the mathematical ceiling
of the exact quotient, matching JavaScript `Math.ceil(a / b)`. -/
theorem jsCeilDiv_eq_ceil (a b : Int) (hb : 0 < b) :
    jsCeilDiv a b = ⌈(a : ℚ) / (b : ℚ)⌉ := by
  have hb' : (0 : Int) ≤ b := le_of_lt hb
  have hbn : ((b.toNat : ℤ)) = b := Int.toNat_of_nonneg hb'
  have h2 : ⌊((-a : ℤ) : ℚ) / ((b.toNat : ℕ) : ℚ)⌋ = (-a) / b := by
    rw [Rat.floor_intCast_div_natCast (-a) b.toNat, hbn]
  have hcast : ((b.toNat : ℕ) : ℚ) = (b : ℚ) := by
    exact_mod_cast hbn
  have h3 : ((-a : ℤ) : ℚ) = -(a : ℚ) := by push_cast; ring
  rw [jsCeilDiv, Int.fdiv_eq_ediv _ hb', ← h2, hcast, h3, neg_div, Int.floor_neg,
    neg_neg]

/-- A finished loop state is a fixed point of the loop step. -/
theorem configStep_of_done (text : List Char) (cs ov : Int) (st : LoopState)
    (h : st.done = true) : configStep text cs ov st = st := by
  simp [configStep, h]

/-- Every raw window of the configurable loop is at most `chunkSize`
characters long. -/
theorem windowAt_length_le (text : List Char) (cs ov : Int) (hcs : 0 < cs)
    (k : Nat) : ((windowAt text cs ov k).length : Int) ≤ cs := by
  unfold windowAt jsSubstring
  simp only [List.length_drop, List.length_take]
  omega

/-- Invariant of the configurable loop, by induction on the iteration
count: while the loop has not exited, the start index follows the window
recurrence `startSeq`, and the accumulated chunks are exactly the
non-empty trimmed windows seen so far, indexed consecutively from 0. -/
theorem configIter_characterization (text : List Char) (cs ov : Int) :
    ∀ n : Nat, ((configStep text cs ov)^[n] ⟨0, 0, [], false⟩).done = false →
      ((configStep text cs ov)^[n] ⟨0, 0, [], false⟩).startIndex = startSeq text cs ov n ∧
      ((configStep text cs ov)^[n] ⟨0, 0, [], false⟩).chunkIndex =
        (emittedUpTo text cs ov n).length ∧
      ((configStep text cs ov)^[n] ⟨0, 0, [], false⟩).chunks =
        mapWithIndex (fun i p => (⟨p, i⟩ : Chunk)) 0 (emittedUpTo text cs ov n) := by
  intro n
  induction n with
  | zero =>
      intro _
      refine ⟨rfl, ?_, ?_⟩ <;> simp [emittedUpTo, mapWithIndex]
  | succ n ih =>
      intro hdone
      rw [Function.iterate_succ_apply'] at hdone ⊢
      set st := (configStep text cs ov)^[n] ⟨0, 0, [], false⟩ with hst
      have hstd : st.done = false := by
        by_contra hc
        rw [Bool.not_eq_false] at hc
        rw [configStep_of_done text cs ov st hc] at hdone
        rw [hdone] at hc
        exact Bool.false_ne_true hc
      obtain ⟨hsi, hci, hch⟩ := ih hstd
      have hlt : st.startIndex < (text.length : Int) := by
        by_contra hge
        have hfix : configStep text cs ov st = { st with done := true } := by
          simp [configStep, hstd, hge]
        rw [hfix] at hdone
        simp at hdone
      have hwin : jsSubstring text st.startIndex
          (min (st.startIndex + cs) (text.length : Int)) = windowAt text cs ov n := by
        rw [windowAt, hsi]
      have hemit : emittedUpTo text cs ov (n + 1) =
          emittedUpTo text cs ov n ++
            (if jsTrim (windowAt text cs ov n) = [] then []
             else [jsTrim (windowAt text cs ov n)]) := by
        unfold emittedUpTo
        rw [List.range_succ, List.map_append, List.filter_append]
        congr 1
        by_cases hx : jsTrim (windowAt text cs ov n) = []
        · simp [hx]
        · have hne : (jsTrim (windowAt text cs ov n)).isEmpty = false := by
            cases hy : jsTrim (windowAt text cs ov n) with
            | nil => exact absurd hy hx
            | cons a l => rfl
          simp [List.filter_cons, hne, hx]
      have hstep : configStep text cs ov st =
          { startIndex := min (st.startIndex + cs) (text.length : Int) - ov
            chunkIndex := if jsTrim (windowAt text cs ov n) = []
              then st.chunkIndex else st.chunkIndex + 1
            chunks := if jsTrim (windowAt text cs ov n) = []
              then st.chunks
              else st.chunks ++ [⟨jsTrim (windowAt text cs ov n), st.chunkIndex⟩]
            done := decide (min (st.startIndex + cs) (text.length : Int) - ov ≥
              (text.length : Int)) } := by
        simp only [configStep, hstd, Bool.false_eq_true, if_false, if_pos hlt]
        rw [hwin]
      refine ⟨?_, ?_, ?_⟩
      · rw [hstep]
        show min (st.startIndex + cs) (text.length : Int) - ov = _
        rw [hsi]
        rfl
      · rw [hstep, hemit]
        by_cases hw : jsTrim (windowAt text cs ov n) = []
        · simp [hw, hci]
        · simp [hw, hci]
      · rw [hstep]
        show (if jsTrim (windowAt text cs ov n) = [] then st.chunks
          else st.chunks ++ [⟨jsTrim (windowAt text cs ov n), st.chunkIndex⟩]) = _
        rw [hemit]
        by_cases hw : jsTrim (windowAt text cs ov n) = []
        · simp [hw, hch]
        · rw [if_neg hw, if_neg hw, mapWithIndex_append_singleton, Nat.zero_add,
            hch, hci]

/-! ### Claims -/

/-- C1 (code bug in the source): for non-empty text and caller options with
`0 < overlap < chunkSize`, `chunkText` in configurable mode does NOT
terminate: at the concrete failing input `"hello world"` with
`chunkSize = 10`, `overlap = 2`, the loop runs out of any amount of fuel.
The spec (and the code's own comment) intend the loop to stop once the
window start reaches the end of the text. -/
theorem C1_configurableChunk_diverges_on_hello_world (fuel : Nat) :
    chunkText ("hello world".toList) ⟨none, some 10, some 2⟩ fuel = none := by
  have h := configRun_eq_none_of_pos_overlap ("hello world".toList) 10 2 (by decide)
    fuel ⟨0, 0, [], false⟩ rfl (by decide)
  have hm : jsOrStr (none : Option (List Char)) ("configurable".toList) ≠ "semantic".toList := by
    decide
  have ht : jsTrim ("hello world".toList) ≠ [] := by decide
  simp only [chunkText, if_neg hm]
  simp only [configurableChunk, if_neg ht]
  have h10 : jsOrInt (some 10) 500 = 10 := by decide
  have h2 : jsOrInt (some 2) 50 = 2 := by decide
  rw [h10, h2]
  exact h

/-- C2 counterexample: at text `"   a"` with caller-supplied
`chunkSize = 3`, `overlap = 1` (positive, `overlap < chunkSize`), the
first window `text[0:3] = "   "` trims to the empty string and is
skipped, so the first emitted chunk is `"a"` — not the trim of
`text[0 : min(chunkSize, length)]` as the claim states. -/
theorem C2_counterexample_first_window_skipped :
    jsTrim (windowAt ("   a".toList) 3 1 0) = [] ∧
    (((configStep ("   a".toList) 3 1)^[2] ⟨0, 0, [], false⟩).chunks).head? =
      some ⟨['a'], 0⟩ ∧
    (((configStep ("   a".toList) 3 1)^[2] ⟨0, 0, [], false⟩).chunks).head? ≠
      some ⟨jsTrim (windowAt ("   a".toList) 3 1 0), 0⟩ := by
  exact ⟨by decide, by decide, by decide⟩

/-- C2 amended: stated of the loop's emission trace (the loop itself never
terminates, see C1).  While the loop runs: window starts follow
`start(k+1) = (window end k) − overlap` from `start 0 = 0`; every raw
window is at most `chunkSize` characters; the emitted chunks are exactly
the non-empty trimmed windows in order, indexed contiguously from 0 (an
empty-trim window is skipped without consuming an index); and the first
emitted chunk is `text[0 : min(chunkSize, length)]` trimmed PROVIDED that
first window trims non-empty. -/
theorem C2_configurable_window_properties (text : List Char) (cs ov : Int)
    (hcs : 0 < cs) :
    (∀ n, ((configStep text cs ov)^[n] ⟨0, 0, [], false⟩).done = false →
      ((configStep text cs ov)^[n] ⟨0, 0, [], false⟩).startIndex =
        startSeq text cs ov n ∧
      ((configStep text cs ov)^[n] ⟨0, 0, [], false⟩).chunks =
        mapWithIndex (fun i p => (⟨p, i⟩ : Chunk)) 0 (emittedUpTo text cs ov n)) ∧
    (∀ k, ((windowAt text cs ov k).length : Int) ≤ cs) ∧
    (∀ n, ((configStep text cs ov)^[n] ⟨0, 0, [], false⟩).done = false →
      jsTrim (windowAt text cs ov 0) ≠ [] → 1 ≤ n →
      (((configStep text cs ov)^[n] ⟨0, 0, [], false⟩).chunks).head? =
        some ⟨jsTrim (windowAt text cs ov 0), 0⟩) := by
  refine ⟨?_, windowAt_length_le text cs ov hcs, ?_⟩
  · intro n hd
    obtain ⟨h1, _, h3⟩ := configIter_characterization text cs ov n hd
    exact ⟨h1, h3⟩
  · intro n hd hw hn
    obtain ⟨_, _, h3⟩ := configIter_characterization text cs ov n hd
    rw [h3]
    obtain ⟨n', rfl⟩ : ∃ n', n = n' + 1 := ⟨n - 1, by omega⟩
    have hne : (jsTrim (windowAt text cs ov 0)).isEmpty = false := by
      cases hy : jsTrim (windowAt text cs ov 0) with
      | nil => exact absurd hy hw
      | cons a l => rfl
    unfold emittedUpTo
    rw [List.range_succ_eq_map, List.map_cons, List.filter_cons]
    simp [hne, mapWithIndex]

/-- Witness for the amended C2 at text `"ab"`, `chunkSize = 1`,
`overlap = 1`, after one iteration. -/
theorem C2_configurable_window_properties_witness :
    (0 : Int) < 1 ∧
    ((configStep ("ab".toList) 1 1)^[1] ⟨0, 0, [], false⟩).done = false ∧
    jsTrim (windowAt ("ab".toList) 1 1 0) ≠ [] ∧ (1 : Nat) ≤ 1 ∧
    (((configStep ("ab".toList) 1 1)^[1] ⟨0, 0, [], false⟩).chunks).head? =
      some ⟨jsTrim (windowAt ("ab".toList) 1 1 0), 0⟩ :=
  ⟨by decide, by decide, by decide, by decide,
   (C2_configurable_window_properties ("ab".toList) 1 1 (by decide)).2.2 1
     (by decide) (by decide) (by decide)⟩

/-- C3: in semantic mode `chunkText` returns exactly the non-empty trimmed
segments obtained by splitting on runs of two or more newlines, in order,
indexed 0,1,2,…; and a non-whitespace text without any paragraph break
yields the single chunk `⟨trimmed text, 0⟩`. -/
theorem C3_semantic_paragraphs (text : List Char) (cs ov : Option Int) (fuel : Nat) :
    chunkText text ⟨some ("semantic".toList), cs, ov⟩ fuel =
      some (mapWithIndex (fun i p => ⟨p, i⟩) 0
        (((splitParas text).map jsTrim).filter (fun p => !p.isEmpty))) ∧
    (jsTrim text ≠ [] → hasParaBreak text = false →
      chunkText text ⟨some ("semantic".toList), cs, ov⟩ fuel =
        some [⟨jsTrim text, 0⟩]) := by
  have hsem : chunkText text ⟨some ("semantic".toList), cs, ov⟩ fuel =
      some (semanticChunk text) := by
    simp only [chunkText]
    rw [if_pos (by decide :
      jsOrStr (some ("semantic".toList)) ("configurable".toList) = "semantic".toList)]
  have hmain : semanticChunk text =
      mapWithIndex (fun i p => ⟨p, i⟩) 0
        (((splitParas text).map jsTrim).filter (fun p => !p.isEmpty)) := by
    by_cases htr : jsTrim text = []
    · have hall : ∀ c ∈ text, isJsWs c = true := jsTrim_eq_nil_iff.mp htr
      have hfil : ((splitParas text).map jsTrim).filter (fun p => !p.isEmpty) = [] := by
        rw [List.filter_eq_nil_iff]
        intro p hp
        rcases List.mem_map.mp hp with ⟨q, hq, rfl⟩
        have hq0 : jsTrim q = [] := by
          rw [jsTrim_eq_nil_iff]
          intro c hc
          rcases splitAux_subset (some []) text q hq c hc with ⟨a, ha, hm⟩ | hm
          · exact absurd (Option.some.inj ha ▸ hm) (List.not_mem_nil c)
          · exact hall c hm
        simp [hq0]
      rw [hfil]
      simp [semanticChunk, htr, mapWithIndex]
    · obtain ⟨c, hc, hw⟩ : ∃ c ∈ text, isJsWs c = false := by
        by_contra hcon
        push_neg at hcon
        refine htr (jsTrim_eq_nil_iff.mpr ?_)
        intro c hc
        cases hb : isJsWs c with
        | false => exact absurd hb (hcon c hc)
        | true => rfl
      obtain ⟨p, hp, hcp⟩ := splitAux_exists_mem c hw (some []) text (Or.inr hc)
      have hptrim : jsTrim p ≠ [] := by
        intro h
        have h' := jsTrim_eq_nil_iff.mp h c hcp
        rw [hw] at h'
        exact Bool.false_ne_true h'
      have hmem : jsTrim p ∈ ((splitParas text).map jsTrim).filter (fun p => !p.isEmpty) := by
        rw [List.mem_filter]
        exact ⟨List.mem_map_of_mem jsTrim hp, by simpa using hptrim⟩
      have hpar : ((splitParas text).map jsTrim).filter (fun p => !p.isEmpty) ≠ [] :=
        List.ne_nil_of_mem hmem
      simp only [semanticChunk, if_neg htr]
      rw [if_neg hpar]
  constructor
  · rw [hsem, hmain]
  · intro htr hbr
    rw [hsem, hmain]
    have hsp : splitParas text = [text] := by
      have h := splitAux_of_no_break [] text hbr
      simpa [splitParas] using h
    have hie : (jsTrim text).isEmpty = false := by
      cases h : jsTrim text with
      | nil => exact absurd h htr
      | cons a l => rfl
    rw [hsp]
    simp [List.filter_cons, hie, mapWithIndex]

/-- Witness for C3 at the concrete break-free input `"a b"`. -/
theorem C3_semantic_paragraphs_witness :
    jsTrim ("a b".toList) ≠ [] ∧ hasParaBreak ("a b".toList) = false ∧
    chunkText ("a b".toList) ⟨some ("semantic".toList), none, none⟩ 0 =
      some [⟨jsTrim ("a b".toList), 0⟩] :=
  ⟨by decide, by decide,
   (C3_semantic_paragraphs ("a b".toList) none none 0).2 (by decide) (by decide)⟩

/-- C4: empty or all-whitespace text yields the empty sequence in both
modes, and `estimateChunks` yields 0. -/
theorem C4_whitespace_empty_results (text : List Char) (options : ChunkOptions)
    (fuel : Nat) (h : jsTrim text = []) :
    chunkText text options fuel = some [] ∧ estimateChunks text options = 0 := by
  constructor
  · simp only [chunkText]
    split_ifs with hmode
    · simp [semanticChunk, h]
    · simp [configurableChunk, h]
  · simp [estimateChunks, h]

/-- Witness for C4 at the concrete all-whitespace input `"  \t\n"`. -/
theorem C4_whitespace_empty_results_witness :
    jsTrim ("  \t\n".toList) = [] ∧
    chunkText ("  \t\n".toList) ⟨none, none, none⟩ 0 = some [] ∧
    estimateChunks ("  \t\n".toList) ⟨some "semantic".toList, none, none⟩ = 0 := by
  refine ⟨by decide, ?_, ?_⟩
  · exact (C4_whitespace_empty_results ("  \t\n".toList) ⟨none, none, none⟩ 0 (by decide)).1
  · exact (C4_whitespace_empty_results ("  \t\n".toList) ⟨some "semantic".toList, none, none⟩ 0 (by decide)).2

/-- C5 counterexample: with caller-supplied `chunkSize = 30` and
`overlap = 0` (allowed by the claim: positive chunkSize, non-negative
overlap, `overlap < chunkSize`) on a 100-character text, the code coerces
the falsy overlap 0 to the default 50, making the step negative:
`estimateChunks` returns `-2`, while the claimed formula
`ceil((100-30)/(30-0)) + 1` equals `4`. -/
theorem C5_counterexample_explicit_zero_overlap :
    estimateChunks (List.replicate 100 'a') ⟨none, some 30, some 0⟩ = -2 ∧
    (⌈(((100 : Int) : ℚ) - 30) / (((30 : Int) : ℚ) - 0)⌉ + 1 : Int) = 4 ∧
    (-2 : Int) ≠ 4 := by
  refine ⟨by decide, ?_, by decide⟩
  have h : (((100 : Int) : ℚ) - 30) / (((30 : Int) : ℚ) - 0) = 70 / 30 := by
    norm_num
  rw [h, show (4 : Int) = 3 + 1 by norm_num]
  have : ⌈(70 / 30 : ℚ)⌉ = 3 := by
    rw [Int.ceil_eq_iff]
    constructor
    · norm_num
    · norm_num
  rw [this]

/-- C5 amended: for non-whitespace text in configurable mode with
caller-supplied `chunkSize` and **positive** `overlap < chunkSize` (a zero
overlap is coerced to the default 50 by falsy defaulting, see C10),
`estimateChunks` returns 1 when `length ≤ chunkSize` and otherwise
`ceil((length − chunkSize) / (chunkSize − overlap)) + 1`. -/
theorem C5_estimateChunks_closed_form (text : List Char) (m : Option (List Char))
    (cs ov : Int) (ht : jsTrim text ≠ [])
    (hm : jsOrStr m ("configurable".toList) ≠ "semantic".toList)
    (hov : 0 < ov) (hlt : ov < cs) :
    estimateChunks text ⟨m, some cs, some ov⟩ =
      if (text.length : Int) ≤ cs then 1
      else ⌈(((text.length : Int) - cs : Int) : ℚ) / (((cs - ov : Int)) : ℚ)⌉ + 1 := by
  have hcs0 : cs ≠ 0 := by omega
  have hov0 : ov ≠ 0 := by omega
  simp only [estimateChunks, if_neg ht, if_neg hm, jsOrInt, if_neg hcs0, if_neg hov0]
  split_ifs with hle
  · rfl
  · rw [jsCeilDiv_eq_ceil _ _ (by omega)]

/-- Witness for the amended C5 at a 12-character text with
`chunkSize = 10`, `overlap = 5`. -/
theorem C5_estimateChunks_closed_form_witness :
    jsTrim (List.replicate 12 'a') ≠ [] ∧
    jsOrStr none ("configurable".toList) ≠ "semantic".toList ∧
    (0 : Int) < 5 ∧ (5 : Int) < 10 ∧
    estimateChunks (List.replicate 12 'a') ⟨none, some 10, some 5⟩ =
      (if ((List.replicate 12 'a').length : Int) ≤ 10 then 1
       else ⌈((((List.replicate 12 'a').length : Int) - 10 : Int) : ℚ) /
              (((10 - 5 : Int)) : ℚ)⌉ + 1) :=
  ⟨by decide, by decide, by decide, by decide,
   C5_estimateChunks_closed_form (List.replicate 12 'a') none 10 5
     (by decide) (by decide) (by decide) (by decide)⟩

/-- C6: whenever `chunkText` returns a chunk sequence, the document
sequence has the same length, the `i`-th document carries id
`{baseId}_chunk_{i+1}`, the `i`-th chunk's text, and lineage metadata
`parent_doc_id = baseId`, `chunk_index = i+1`,
`total_chunks = chunks.length`; an empty chunk sequence yields no
documents. -/
theorem C6_document_structure (baseId text : List Char) (options : ChunkOptions)
    (baseMetadata : Obj) (fuel : Nat) (chunks : List Chunk)
    (h : chunkText text options fuel = some chunks) :
    ∃ docs, createChunkedDocuments baseId text options baseMetadata fuel = some docs ∧
      docs.length = chunks.length ∧
      (chunks = [] → docs = []) ∧
      (∀ (i : Nat) (chunk : Chunk), chunks[i]? = some chunk →
        ∃ doc, docs[i]? = some doc ∧
          doc.id = baseId ++ "_chunk_".toList ++ (Nat.repr (i + 1)).toList ∧
          doc.text = chunk.text ∧
          objGet doc.metadata ("parent_doc_id".toList) = some (MetaVal.str baseId) ∧
          objGet doc.metadata ("chunk_index".toList) =
            some (MetaVal.num (Int.ofNat (i + 1))) ∧
          objGet doc.metadata ("total_chunks".toList) =
            some (MetaVal.num (Int.ofNat chunks.length))) := by
  have hc : createChunkedDocuments baseId text options baseMetadata fuel =
      some (mapWithIndex (fun index chunk =>
        ({ id := baseId ++ "_chunk_".toList ++ (Nat.repr (index + 1)).toList
           text := chunk.text
           metadata := objSets baseMetadata
             [("parent_doc_id".toList, MetaVal.str baseId),
              ("chunk_index".toList, MetaVal.num (Int.ofNat (index + 1))),
              ("total_chunks".toList, MetaVal.num (Int.ofNat chunks.length)),
              ("chunk_mode".toList,
               MetaVal.str (jsOrStr options.mode ("configurable".toList)))] } :
          ChunkedDocument)) 0 chunks) := by
    unfold createChunkedDocuments
    rw [h]
    rfl
  refine ⟨_, hc, mapWithIndex_length _ _ _, ?_, ?_⟩
  · rintro rfl
    rfl
  · intro i chunk hi
    refine ⟨{ id := baseId ++ "_chunk_".toList ++ (Nat.repr (i + 1)).toList
              text := chunk.text
              metadata := objSets baseMetadata
                [("parent_doc_id".toList, MetaVal.str baseId),
                 ("chunk_index".toList, MetaVal.num (Int.ofNat (i + 1))),
                 ("total_chunks".toList, MetaVal.num (Int.ofNat chunks.length)),
                 ("chunk_mode".toList,
                  MetaVal.str (jsOrStr options.mode ("configurable".toList)))] },
      ?_, rfl, rfl, ?_, ?_, ?_⟩
    · rw [mapWithIndex_getElem?, hi, Option.map_some', Nat.zero_add]
    · exact (metadata_lineage_lookup baseMetadata baseId
        (jsOrStr options.mode ("configurable".toList)) (Int.ofNat (i + 1))
        (Int.ofNat chunks.length)).1
    · exact (metadata_lineage_lookup baseMetadata baseId
        (jsOrStr options.mode ("configurable".toList)) (Int.ofNat (i + 1))
        (Int.ofNat chunks.length)).2.1
    · exact (metadata_lineage_lookup baseMetadata baseId
        (jsOrStr options.mode ("configurable".toList)) (Int.ofNat (i + 1))
        (Int.ofNat chunks.length)).2.2.1

/-- Witness for C6 at the concrete semantic input of two paragraphs. -/
theorem C6_document_structure_witness :
    chunkText ("Para one.\n\nPara two.".toList)
        ⟨some ("semantic".toList), none, none⟩ 0 =
      some [⟨"Para one.".toList, 0⟩, ⟨"Para two.".toList, 1⟩] ∧
    (∃ docs, createChunkedDocuments ("doc1".toList) ("Para one.\n\nPara two.".toList)
        ⟨some ("semantic".toList), none, none⟩
        [("source".toList, MetaVal.str ("test".toList))] 0 = some docs ∧
      docs.length = ([⟨"Para one.".toList, 0⟩, ⟨"Para two.".toList, 1⟩] : List Chunk).length ∧
      (([⟨"Para one.".toList, 0⟩, ⟨"Para two.".toList, 1⟩] : List Chunk) = [] → docs = []) ∧
      (∀ (i : Nat) (chunk : Chunk),
        ([⟨"Para one.".toList, 0⟩, ⟨"Para two.".toList, 1⟩] : List Chunk)[i]? = some chunk →
        ∃ doc, docs[i]? = some doc ∧
          doc.id = "doc1".toList ++ "_chunk_".toList ++ (Nat.repr (i + 1)).toList ∧
          doc.text = chunk.text ∧
          objGet doc.metadata ("parent_doc_id".toList) =
            some (MetaVal.str ("doc1".toList)) ∧
          objGet doc.metadata ("chunk_index".toList) =
            some (MetaVal.num (Int.ofNat (i + 1))) ∧
          objGet doc.metadata ("total_chunks".toList) =
            some (MetaVal.num (Int.ofNat
              ([⟨"Para one.".toList, 0⟩, ⟨"Para two.".toList, 1⟩] : List Chunk).length)))) :=
  ⟨by decide,
   C6_document_structure ("doc1".toList) ("Para one.\n\nPara two.".toList)
     ⟨some ("semantic".toList), none, none⟩
     [("source".toList, MetaVal.str ("test".toList))] 0
     [⟨"Para one.".toList, 0⟩, ⟨"Para two.".toList, 1⟩] (by decide)⟩

/-- Shared helper: metadata facts for every member of a document list
produced by `createChunkedDocuments`. -/
theorem createChunkedDocuments_metadata_spec (baseId text : List Char) (options : ChunkOptions)
    (baseMetadata : Obj) (fuel : Nat) (docs : List ChunkedDocument)
    (h : createChunkedDocuments baseId text options baseMetadata fuel = some docs) :
    ∀ d ∈ docs,
      objGet d.metadata ("parent_doc_id".toList) = some (MetaVal.str baseId) ∧
      (∃ i : Nat, objGet d.metadata ("chunk_index".toList) =
        some (MetaVal.num (Int.ofNat (i + 1)))) ∧
      objGet d.metadata ("total_chunks".toList) =
        some (MetaVal.num (Int.ofNat docs.length)) ∧
      objGet d.metadata ("chunk_mode".toList) =
        some (MetaVal.str (jsOrStr options.mode ("configurable".toList))) ∧
      (∀ k, k ≠ "parent_doc_id".toList → k ≠ "chunk_index".toList →
        k ≠ "total_chunks".toList → k ≠ "chunk_mode".toList →
        objGet d.metadata k = objGet baseMetadata k) := by
  unfold createChunkedDocuments at h
  rcases hEq : chunkText text options fuel with _ | chunks
  · rw [hEq] at h
    exact absurd h (by simp)
  · rw [hEq, Option.map_some'] at h
    have hdocs := (Option.some.inj h).symm
    subst hdocs
    intro d hd
    obtain ⟨j, hj⟩ := List.mem_iff_getElem?.mp hd
    rw [mapWithIndex_getElem?] at hj
    rcases hcj : chunks[j]? with _ | chunk
    · rw [hcj] at hj
      exact absurd hj (by simp)
    · rw [hcj, Option.map_some', Nat.zero_add] at hj
      have hd' := (Option.some.inj hj).symm
      subst hd'
      rw [mapWithIndex_length]
      have hm := metadata_lineage_lookup baseMetadata baseId
        (jsOrStr options.mode ("configurable".toList)) (Int.ofNat (j + 1))
        (Int.ofNat chunks.length)
      exact ⟨hm.1, ⟨j, hm.2.1⟩, hm.2.2.1, hm.2.2.2.1, hm.2.2.2.2⟩

/-- C7: base metadata is merged first and the four lineage fields
overwrite any base entry with the same name; every other base field is
preserved unchanged in each produced document. -/
theorem C7_base_metadata_merge (baseId text : List Char) (options : ChunkOptions)
    (baseMetadata : Obj) (fuel : Nat) (docs : List ChunkedDocument)
    (h : createChunkedDocuments baseId text options baseMetadata fuel = some docs) :
    ∀ d ∈ docs,
      objGet d.metadata ("parent_doc_id".toList) = some (MetaVal.str baseId) ∧
      (∃ i : Nat, objGet d.metadata ("chunk_index".toList) =
        some (MetaVal.num (Int.ofNat (i + 1)))) ∧
      objGet d.metadata ("total_chunks".toList) =
        some (MetaVal.num (Int.ofNat docs.length)) ∧
      objGet d.metadata ("chunk_mode".toList) =
        some (MetaVal.str (jsOrStr options.mode ("configurable".toList))) ∧
      (∀ k, k ≠ "parent_doc_id".toList → k ≠ "chunk_index".toList →
        k ≠ "total_chunks".toList → k ≠ "chunk_mode".toList →
        objGet d.metadata k = objGet baseMetadata k) :=
  createChunkedDocuments_metadata_spec baseId text options baseMetadata fuel docs h

/-- Witness for C7: the base metadata already defines `parent_doc_id`
(overwritten by the lineage value) and an unrelated key `k` (preserved). -/
theorem C7_base_metadata_merge_witness :
    createChunkedDocuments ("d".toList) ("a\n\nb".toList)
        ⟨some ("semantic".toList), none, none⟩
        [("parent_doc_id".toList, MetaVal.str ("x".toList)),
         ("k".toList, MetaVal.num 7)] 0 =
      some [⟨"d_chunk_1".toList, ['a'],
             [("parent_doc_id".toList, MetaVal.str ("d".toList)),
              ("k".toList, MetaVal.num 7),
              ("chunk_index".toList, MetaVal.num 1),
              ("total_chunks".toList, MetaVal.num 2),
              ("chunk_mode".toList, MetaVal.str ("semantic".toList))]⟩,
            ⟨"d_chunk_2".toList, ['b'],
             [("parent_doc_id".toList, MetaVal.str ("d".toList)),
              ("k".toList, MetaVal.num 7),
              ("chunk_index".toList, MetaVal.num 2),
              ("total_chunks".toList, MetaVal.num 2),
              ("chunk_mode".toList, MetaVal.str ("semantic".toList))]⟩] ∧
    ∀ d ∈ ([⟨"d_chunk_1".toList, ['a'],
             [("parent_doc_id".toList, MetaVal.str ("d".toList)),
              ("k".toList, MetaVal.num 7),
              ("chunk_index".toList, MetaVal.num 1),
              ("total_chunks".toList, MetaVal.num 2),
              ("chunk_mode".toList, MetaVal.str ("semantic".toList))]⟩,
            ⟨"d_chunk_2".toList, ['b'],
             [("parent_doc_id".toList, MetaVal.str ("d".toList)),
              ("k".toList, MetaVal.num 7),
              ("chunk_index".toList, MetaVal.num 2),
              ("total_chunks".toList, MetaVal.num 2),
              ("chunk_mode".toList, MetaVal.str ("semantic".toList))]⟩] :
        List ChunkedDocument),
      objGet d.metadata ("parent_doc_id".toList) = some (MetaVal.str ("d".toList)) ∧
      (∃ i : Nat, objGet d.metadata ("chunk_index".toList) =
        some (MetaVal.num (Int.ofNat (i + 1)))) ∧
      objGet d.metadata ("total_chunks".toList) = some (MetaVal.num (Int.ofNat 2)) ∧
      objGet d.metadata ("chunk_mode".toList) =
        some (MetaVal.str (jsOrStr (some ("semantic".toList)) ("configurable".toList))) ∧
      (∀ k, k ≠ "parent_doc_id".toList → k ≠ "chunk_index".toList →
        k ≠ "total_chunks".toList → k ≠ "chunk_mode".toList →
        objGet d.metadata k =
          objGet [("parent_doc_id".toList, MetaVal.str ("x".toList)),
                  ("k".toList, MetaVal.num 7)] k) :=
  ⟨by decide,
   C7_base_metadata_merge ("d".toList) ("a\n\nb".toList)
     ⟨some ("semantic".toList), none, none⟩
     [("parent_doc_id".toList, MetaVal.str ("x".toList)),
      ("k".toList, MetaVal.num 7)] 0 _ (by decide)⟩

/-- C9: `chunkText` and `createChunkedDocuments` are deterministic — the
embedding is a pure function of text, options, base id and base metadata. -/
theorem C9_deterministic (t₁ t₂ b₁ b₂ : List Char) (o₁ o₂ : ChunkOptions)
    (m₁ m₂ : Obj) (f₁ f₂ : Nat)
    (ht : t₁ = t₂) (ho : o₁ = o₂) (hb : b₁ = b₂) (hm : m₁ = m₂) (hf : f₁ = f₂) :
    chunkText t₁ o₁ f₁ = chunkText t₂ o₂ f₂ ∧
    createChunkedDocuments b₁ t₁ o₁ m₁ f₁ = createChunkedDocuments b₂ t₂ o₂ m₂ f₂ := by
  subst ht; subst ho; subst hb; subst hm; subst hf
  exact ⟨rfl, rfl⟩

/-- Witness for C9 at a concrete semantic-mode input. -/
theorem C9_deterministic_witness :
    chunkText ("a\n\nb".toList) ⟨some "semantic".toList, none, none⟩ 3 =
      chunkText ("a\n\nb".toList) ⟨some "semantic".toList, none, none⟩ 3 ∧
    createChunkedDocuments ("d".toList) ("a\n\nb".toList)
        ⟨some "semantic".toList, none, none⟩ [] 3 =
      createChunkedDocuments ("d".toList) ("a\n\nb".toList)
        ⟨some "semantic".toList, none, none⟩ [] 3 :=
  C9_deterministic _ _ _ _ _ _ _ _ _ _ rfl rfl rfl rfl rfl

/-- C8 counterexample: with the unrecognized truthy mode `"banana"` (and a
negative overlap, the only way the loop terminates), chunking behaves as
configurable mode, yet the produced document records
`chunk_mode = "banana"`, which is neither `"semantic"` nor
`"configurable"` — refuting the claim that `chunk_mode` always equals the
mode actually used. -/
theorem C8_counterexample_unrecognized_mode :
    (createChunkedDocuments ("d".toList) ("hello".toList)
        ⟨some ("banana".toList), none, some (-1)⟩ [] 1).map
        (fun docs => docs.map (fun d => objGet d.metadata ("chunk_mode".toList))) =
      some [some (MetaVal.str ("banana".toList))] ∧
    "banana".toList ≠ "semantic".toList ∧
    "banana".toList ≠ "configurable".toList ∧
    chunkText ("hello".toList) ⟨some ("banana".toList), none, some (-1)⟩ 1 =
      configurableChunk ("hello".toList) ⟨some ("banana".toList), none, some (-1)⟩ 1 := by
  exact ⟨by decide, by decide, by decide, by decide⟩

/-- C8 amended: an absent, empty or unrecognized `options.mode` makes
chunking behave as configurable mode (as claimed); but `chunk_mode`
records the raw `options.mode || "configurable"` value, which coincides
with the mode actually used only when the mode is absent, empty,
`"semantic"` or `"configurable"` — an unrecognized truthy string is
recorded verbatim. -/
theorem C8_mode_defaulting_and_chunk_mode (baseId text : List Char)
    (options : ChunkOptions) (baseMetadata : Obj) (fuel : Nat) :
    (options.mode = none ∨ options.mode = some [] ∨
        (options.mode ≠ some ("semantic".toList) ∧
         options.mode ≠ some ("configurable".toList)) →
      chunkText text options fuel = configurableChunk text options fuel) ∧
    ∀ docs, createChunkedDocuments baseId text options baseMetadata fuel = some docs →
      ∀ d ∈ docs, objGet d.metadata ("chunk_mode".toList) =
        some (MetaVal.str (jsOrStr options.mode ("configurable".toList))) := by
  constructor
  · intro hm
    have hne : jsOrStr options.mode ("configurable".toList) ≠ "semantic".toList := by
      rcases hm with h | h | ⟨h1, _⟩
      · rw [h]; decide
      · rw [h]; decide
      · rcases ho : options.mode with _ | m
        · decide
        · rw [ho] at h1
          simp only [jsOrStr]
          split_ifs with hm0
          · decide
          · intro hc
            exact h1 (by rw [hc])
    simp only [chunkText]
    rw [if_neg hne]
  · intro docs h d hd
    exact ((createChunkedDocuments_metadata_spec baseId text options baseMetadata
      fuel docs h) d hd).2.2.2.1

/-- Witness for the amended C8 at the `"banana"` mode input. -/
theorem C8_mode_defaulting_witness :
    chunkText ("hello".toList) ⟨some ("banana".toList), none, some (-1)⟩ 1 =
      configurableChunk ("hello".toList) ⟨some ("banana".toList), none, some (-1)⟩ 1 ∧
    ∀ d ∈ ([⟨"d_chunk_1".toList, "hello".toList,
             [("parent_doc_id".toList, MetaVal.str ("d".toList)),
              ("chunk_index".toList, MetaVal.num 1),
              ("total_chunks".toList, MetaVal.num 1),
              ("chunk_mode".toList, MetaVal.str ("banana".toList))]⟩] :
        List ChunkedDocument),
      objGet d.metadata ("chunk_mode".toList) =
        some (MetaVal.str (jsOrStr (some ("banana".toList)) ("configurable".toList))) :=
  ⟨(C8_mode_defaulting_and_chunk_mode ("d".toList) ("hello".toList)
      ⟨some ("banana".toList), none, some (-1)⟩ [] 1).1
      (Or.inr (Or.inr ⟨by decide, by decide⟩)),
   (C8_mode_defaulting_and_chunk_mode ("d".toList) ("hello".toList)
      ⟨some ("banana".toList), none, some (-1)⟩ [] 1).2 _ (by decide)⟩

/-- C10: numeric option defaulting is by falsiness: an explicit 0 for
`chunkSize` or `overlap` behaves exactly like omitting the option, in both
`chunkText` (configurable mode) and `estimateChunks`; the effective overlap
can never be 0. -/
theorem C10_falsy_numeric_defaulting (text : List Char) (m : Option (List Char))
    (cs ov : Option Int) (fuel : Nat) :
    chunkText text ⟨m, some 0, ov⟩ fuel = chunkText text ⟨m, none, ov⟩ fuel ∧
    chunkText text ⟨m, cs, some 0⟩ fuel = chunkText text ⟨m, cs, none⟩ fuel ∧
    estimateChunks text ⟨m, some 0, ov⟩ = estimateChunks text ⟨m, none, ov⟩ ∧
    estimateChunks text ⟨m, cs, some 0⟩ = estimateChunks text ⟨m, cs, none⟩ ∧
    jsOrInt (some 0) 500 = 500 ∧ jsOrInt (some 0) 50 = 50 ∧
    ∀ o : ChunkOptions, jsOrInt o.overlap 50 ≠ 0 := by
  refine ⟨?_, ?_, ?_, ?_, rfl, rfl, ?_⟩
  · simp [chunkText, configurableChunk, jsOrInt]
  · simp [chunkText, configurableChunk, jsOrInt]
  · simp [estimateChunks, jsOrInt]
  · simp [estimateChunks, jsOrInt]
  · intro o
    rcases o with ⟨m', cs', ov'⟩
    rcases ov' with _ | v
    · simp [jsOrInt]
    · by_cases hv : v = 0 <;> simp [jsOrInt, hv]

end ChunkingService
